import Mathlib

/-!
Shallow embedding of the trade-simulation and performance-measurement core of
the stock-strategy analyzer (`src/backtest/engine.py`, `src/backtest/metrics.py`).
Prices and cash are exact rationals, timestamps are integer nanoseconds as in
the source, and signals are the integers 1 (enter), -1 (exit), 0 (none).
-/

namespace StockBacktest

/-- Trading direction (the source's `strategy_type` string). -/
inductive Direction where
  | long
  | short
deriving DecidableEq

/-- Exit reason recorded on a trade (the source's string values). -/
inductive ExitReason where
  | signal
  | trailing_stop
  | forced_max
  | end_of_data
deriving DecidableEq, Inhabited

/-- One OHLC bar: integer-nanosecond timestamp plus the price columns the
simulators read (`Open`/`Volume` are unused by them). -/
structure Bar where
  date : ℤ
  high : ℚ
  low : ℚ
  close : ℚ
deriving DecidableEq

/-- A closed trade record, the dict appended to `trades` in the source. -/
structure Trade where
  entry_date : ℤ
  exit_date : ℤ
  entry_price : ℚ
  exit_price : ℚ
  shares : ℤ
  profit : ℚ
  profit_pct : ℚ
  holding_days : ℤ
  forced_exit : Bool
  within_target_period : Bool
  exit_reason : ExitReason
deriving DecidableEq, Inhabited

/-- Engine configuration fields (from `config.yaml`) that the simulators use. -/
structure Config where
  initial_capital : ℚ
  target_holding_days : ℤ
  max_holding_days : ℕ
  trailing_stop_enabled : Bool
  trailing_stop_long : ℚ
  trailing_stop_short : ℚ
deriving DecidableEq

/-- Nanoseconds per calendar day (`ns_per_day` in the source). -/
def ns_per_day : ℤ := 86400 * 1000000000

/-- Python `int()` applied to an exact quotient: truncation toward zero. -/
def pyInt (q : ℚ) : ℤ := if 0 ≤ q then ⌊q⌋ else ⌈q⌉

/-- Calendar days between two nanosecond timestamps: Python floor division
`(b - a) // ns_per_day`, also the value of `Timedelta.days`. -/
def daysBetween (a b : ℤ) : ℤ := Int.fdiv (b - a) ns_per_day

lemma daysBetween_eq (a b : ℤ) : daysBetween a b = (b - a) / ns_per_day := by
  unfold daysBetween
  exact Int.fdiv_eq_ediv _ (by norm_num [ns_per_day])

/-- Indices of bars whose signal equals `v` (`np.where(signals == v)[0]`). -/
def signalIdx (signals : List ℤ) (v : ℤ) : List ℕ :=
  (List.range signals.length).filter (fun i => signals.getD i 0 = v)

/-- First index in `[start, stop)` satisfying `p` (the guarded
`np.argmax` over a boolean mask in the source). -/
def findFirstIdx (start stop : ℕ) (p : ℕ → Bool) : Option ℕ :=
  (((List.range stop).drop start).filter p).head?

/-- First exit candidate strictly after `e`
(`exit_candidates[np.searchsorted(exit_candidates, entry_idx, side=right):][0]`). -/
def firstExitAfter (exits : List ℕ) (e : ℕ) : Option ℕ :=
  (exits.filter (fun j => e < j)).head?

/-- Running maximum of the highs over bars `e+1 … j`, seeded with the entry
price (`np.maximum.accumulate(np.maximum(highs[e+1:], entry_price))`). -/
def cummaxHigh (highs : List ℚ) (ep : ℚ) (e j : ℕ) : ℚ :=
  ((highs.drop (e + 1)).take (j - e)).foldl max ep

/-- Running minimum of the lows over bars `e+1 … j`, seeded with the entry
price (`np.minimum.accumulate(np.minimum(lows[e+1:], entry_price))`). -/
def cumminLow (lows : List ℚ) (ep : ℚ) (e j : ℕ) : ℚ :=
  ((lows.drop (e + 1)).take (j - e)).foldl min ep

/-- All per-run data the vectorized candidate scan consults. -/
structure VCtx where
  n : ℕ
  dates : List ℤ
  closes : List ℚ
  highs : List ℚ
  lows : List ℚ
  exits : List ℕ
  commission : ℚ
  slippage : ℚ
  lending_rate : ℚ
  direction : Direction
  cfg : Config

/-- First bar after entry on which the trailing stop fires
(`engine.py` lines 546-566). -/
def trailingStopIdx (ctx : VCtx) (e : ℕ) (ep : ℚ) : Option ℕ :=
  if ctx.cfg.trailing_stop_enabled = true ∧ e + 1 < ctx.n then
    match ctx.direction with
    | .long =>
        findFirstIdx (e + 1) ctx.n
          (fun j =>
            ctx.closes.getD j 0 < cummaxHigh ctx.highs ep e j * (1 - ctx.cfg.trailing_stop_long))
    | .short =>
        findFirstIdx (e + 1) ctx.n
          (fun j =>
            cumminLow ctx.lows ep e j * (1 + ctx.cfg.trailing_stop_short) < ctx.closes.getD j 0)
  else none

/-- First bar inside the bounded search window with elapsed calendar days at
or above the holding cap (`engine.py` lines 568-575). -/
def forcedExitIdx (ctx : VCtx) (e : ℕ) : Option ℕ :=
  let search_end := min (e + ctx.cfg.max_holding_days + 2) ctx.n
  findFirstIdx (e + 1) search_end
    (fun j =>
      (ctx.cfg.max_holding_days : ℤ) ≤ daysBetween (ctx.dates.getD e 0) (ctx.dates.getD j 0))

/-- Exit-candidate resolution (`engine.py` lines 579-605): start from the
signal exit (or data end), let the trailing stop and then the forced
max-holding exit override only when strictly earlier, then relabel a
data-end "signal" exit as end-of-data. -/
def resolveExit (n : ℕ) (sigFirst trailIdx forcedIdx : Option ℕ) : ℕ × Bool × ExitReason :=
  let signal_exit_idx := sigFirst.getD (n - 1)
  let r1 : ℕ × Bool × ExitReason := (signal_exit_idx, false, .signal)
  let r2 : ℕ × Bool × ExitReason :=
    match trailIdx with
    | some t => if t < r1.1 then (t, false, .trailing_stop) else r1
    | none => r1
  let r3 : ℕ × Bool × ExitReason :=
    match forcedIdx with
    | some f => if f < r2.1 then (f, true, .forced_max) else r2
    | none => r2
  if r3.1 = n - 1 ∧ r3.2.2 = .signal ∧ (sigFirst = none ∨ sigFirst = some (n - 1)) then
    (r3.1, true, .end_of_data)
  else r3

/-- State of the vectorized candidate scan: cash, resume index, trades so far. -/
structure VState where
  cash : ℚ
  current_pos : ℕ
  trades : List Trade
deriving DecidableEq

/-- Process one entry candidate: the body of the
`for entry_idx in entry_candidates` loop (`engine.py` lines 529-660). -/
def processEntry (ctx : VCtx) (st : VState) (entry_idx : ℕ) : VState :=
  if entry_idx < st.current_pos then st
  else
    let entry_date := ctx.dates.getD entry_idx 0
    let entry_price := ctx.closes.getD entry_idx 0 * (1 + ctx.slippage)
    let res :=
      resolveExit ctx.n (firstExitAfter ctx.exits entry_idx)
        (trailingStopIdx ctx entry_idx entry_price) (forcedExitIdx ctx entry_idx)
    let exit_idx := res.1
    let exit_date := ctx.dates.getD exit_idx 0
    let exit_price := ctx.closes.getD exit_idx 0 * (1 - ctx.slippage)
    let holding_days := daysBetween entry_date exit_date
    let position := if 0 < entry_price then pyInt (st.cash / entry_price) else 0
    if position = 0 then { st with current_pos := exit_idx + 1 }
    else
      let cost := (position : ℚ) * entry_price
      let entry_commission := cost * ctx.commission
      let proceeds := (position : ℚ) * exit_price
      let exit_commission := proceeds * ctx.commission
      let lending_cost :=
        match ctx.direction with
        | .short => (position : ℚ) * entry_price * ctx.lending_rate * ((holding_days : ℚ) / 365)
        | .long => 0
      let profit :=
        match ctx.direction with
        | .long => (exit_price - entry_price) * (position : ℚ) - (entry_commission + exit_commission)
        | .short =>
            (entry_price - exit_price) * (position : ℚ) - (entry_commission + exit_commission)
              - lending_cost
      let profit_pct := if 0 < cost then profit / cost * 100 else 0
      let trade : Trade :=
        { entry_date := entry_date
          exit_date := exit_date
          entry_price := entry_price
          exit_price := exit_price
          shares := position
          profit := profit
          profit_pct := profit_pct
          holding_days := holding_days
          forced_exit := res.2.1
          within_target_period := decide (holding_days ≤ ctx.cfg.target_holding_days)
          exit_reason := res.2.2 }
      { cash := st.cash - cost - entry_commission + proceeds - exit_commission - lending_cost
        current_pos := exit_idx + 1
        trades := st.trades ++ [trade] }

/-- Build the scan context from the input frame and signals. -/
def mkVCtx (df : List Bar) (signals : List ℤ) (commission slippage lending_rate : ℚ)
    (direction : Direction) (cfg : Config) : VCtx :=
  { n := df.length
    dates := df.map Bar.date
    closes := df.map Bar.close
    highs := df.map Bar.high
    lows := df.map Bar.low
    exits := signalIdx signals (-1)
    commission := commission
    slippage := slippage
    lending_rate := lending_rate
    direction := direction
    cfg := cfg }

/-- The batch/candidate-resolution simulator `_execute_trades_vectorized`
(`engine.py` lines 468-668); yields the produced trade list. -/
def execute_trades_vectorized (df : List Bar) (signals : List ℤ)
    (commission slippage lending_rate : ℚ) (direction : Direction) (cfg : Config) :
    List Trade :=
  if df.length = 0 then []
  else
    ((signalIdx signals 1).foldl
      (processEntry (mkVCtx df signals commission slippage lending_rate direction cfg))
      { cash := cfg.initial_capital, current_pos := 0, trades := [] }).trades

/-- State of the per-bar scan: the local variables of `_execute_trades`. -/
structure PState where
  cash : ℚ
  position : ℤ
  entry_price : ℚ
  entry_date : Option ℤ
  trades : List Trade
  equity : List ℚ
deriving DecidableEq

/-- Mark-to-market account value at the top of each per-bar iteration
(`engine.py` lines 337-346). -/
def pbMark (direction : Direction) (st : PState) (price : ℚ) : ℚ :=
  if st.position = 0 then st.cash
  else
    match direction with
    | .long => st.cash + (st.position : ℚ) * price
    | .short => st.cash + (st.position : ℚ) * (st.entry_price - price)

/-- The per-bar forced-exit check (`engine.py` lines 350-355). -/
def pbForce (cfg : Config) (st : PState) (date : ℤ) : Bool :=
  match st.entry_date with
  | some ed =>
      decide (0 < st.position) && decide ((cfg.max_holding_days : ℤ) ≤ daysBetween ed date)
  | none => false

/-- The per-bar entry branch (`engine.py` lines 358-369). -/
def pbEnter (commission slippage : ℚ) (st : PState) (date : ℤ) (price : ℚ) : PState :=
  let entry_price := price * (1 + slippage)
  let position := pyInt (st.cash / entry_price)
  if 0 < position then
    let cost := (position : ℚ) * entry_price
    let commission_cost := cost * commission
    { st with position := position, entry_price := entry_price,
              cash := st.cash - (cost + commission_cost), entry_date := some date }
  else
    { st with position := position, entry_price := entry_price }

/-- The per-bar exit branch (`engine.py` lines 372-424). -/
def pbExit (commission slippage lending_rate : ℚ) (direction : Direction) (cfg : Config)
    (st : PState) (date : ℤ) (price : ℚ) (force_exit : Bool) : PState :=
  let exit_price := price * (1 - slippage)
  let proceeds := (st.position : ℚ) * exit_price
  let commission_cost := proceeds * commission
  let holding_days :=
    match st.entry_date with
    | some ed => daysBetween ed date
    | none => 0
  let lending_cost :=
    match direction, st.entry_date with
    | .short, some _ =>
        (st.position : ℚ) * st.entry_price * lending_rate * ((holding_days : ℚ) / 365)
    | _, _ => 0
  let profit :=
    match direction with
    | .long => (exit_price - st.entry_price) * (st.position : ℚ) - commission_cost * 2
    | .short =>
        (st.entry_price - exit_price) * (st.position : ℚ) - commission_cost * 2 - lending_cost
  let profit_pct := profit / ((st.position : ℚ) * st.entry_price) * 100
  let trade : Trade :=
    { entry_date := st.entry_date.getD 0
      exit_date := date
      entry_price := st.entry_price
      exit_price := exit_price
      shares := st.position
      profit := profit
      profit_pct := profit_pct
      holding_days := holding_days
      forced_exit := force_exit
      within_target_period := decide (holding_days ≤ cfg.target_holding_days)
      exit_reason := if force_exit then .forced_max else .signal }
  { st with cash := st.cash + (proceeds - commission_cost - lending_cost),
            trades := st.trades ++ [trade],
            position := 0, entry_date := none }

/-- Per-bar loop body of `_execute_trades` (`engine.py` lines 332-424):
append the mark-to-market equity, then process entry / exit for this bar. -/
def pbStep (commission slippage lending_rate : ℚ) (direction : Direction) (cfg : Config)
    (st : PState) (bar : Bar × ℤ) : PState :=
  let date := bar.1.date
  let price := bar.1.close
  let signal := bar.2
  let st := { st with equity := st.equity ++ [pbMark direction st price] }
  let force_exit := pbForce cfg st date
  if signal = 1 ∧ st.position = 0 then
    pbEnter commission slippage st date price
  else if (signal = -1 ∨ force_exit = true) ∧ 0 < st.position then
    pbExit commission slippage lending_rate direction cfg st date price force_exit
  else st

/-- The per-bar simulator `_execute_trades` (`engine.py` lines 302-466):
scan every bar, then force-settle a still-open position at the last bar with
the raw close and reason end-of-data; yields (trade list, equity trajectory). -/
def execute_trades (df : List Bar) (signals : List ℤ)
    (commission slippage lending_rate : ℚ) (direction : Direction) (cfg : Config) :
    List Trade × List ℚ :=
  let final :=
    (df.zip signals).foldl (pbStep commission slippage lending_rate direction cfg)
      { cash := cfg.initial_capital, position := 0, entry_price := 0,
        entry_date := none, trades := [], equity := [] }
  match df.getLast? with
  | none => (final.trades, final.equity)
  | some lastBar =>
      if 0 < final.position then
        let final_price := lastBar.close
        let proceeds := (final.position : ℚ) * final_price
        let commission_cost := proceeds * commission
        let holding_days :=
          match final.entry_date with
          | some ed => daysBetween ed lastBar.date
          | none => 0
        let lending_cost :=
          match direction, final.entry_date with
          | .short, some _ =>
              (final.position : ℚ) * final.entry_price * lending_rate * ((holding_days : ℚ) / 365)
          | _, _ => 0
        let profit :=
          match direction with
          | .long => (final_price - final.entry_price) * (final.position : ℚ) - commission_cost * 2
          | .short =>
              (final.entry_price - final_price) * (final.position : ℚ) - commission_cost * 2
                - lending_cost
        let profit_pct := profit / ((final.position : ℚ) * final.entry_price) * 100
        let trade : Trade :=
          { entry_date := final.entry_date.getD 0
            exit_date := lastBar.date
            entry_price := final.entry_price
            exit_price := final_price
            shares := final.position
            profit := profit
            profit_pct := profit_pct
            holding_days := holding_days
            forced_exit := true
            within_target_period := decide (holding_days ≤ cfg.target_holding_days)
            exit_reason := .end_of_data }
        (final.trades ++ [trade], final.equity)
      else (final.trades, final.equity)

/-- `np.searchsorted` (side left) on a sorted timestamp array: the first
index whose timestamp is at least `d`, or the array length. -/
def searchsorted (dates : List ℤ) (d : ℤ) : ℕ :=
  (findFirstIdx 0 dates.length (fun i => d ≤ dates.getD i 0)).getD dates.length

/-- One iteration of the trade loop of
`_calculate_equity_from_trades_vectorized` (`engine.py` lines 695-724).  The
numpy equity array is modelled as a function on bar indices and each slice
assignment as a pointwise guarded update: cash before the entry index, the
mark-to-market value over the trade span, and — after advancing cash by the
trade's recorded profit — the new cash after the exit index. -/
def ceftStep (prices : List ℚ) (dates : List ℤ) (n : ℕ) (direction : Direction)
    (st : ℚ × (ℕ → ℚ)) (trade : Trade) : ℚ × (ℕ → ℚ) :=
  let cash := st.1
  let entry_idx := searchsorted dates trade.entry_date
  let exit_idx := searchsorted dates trade.exit_date
  let equity := fun j => if j < entry_idx then cash else st.2 j
  let trade_end := min (exit_idx + 1) n
  let equity := fun j =>
    if entry_idx ≤ j ∧ j < trade_end then
      match direction with
      | .long =>
          cash - (trade.shares : ℚ) * trade.entry_price
            + (trade.shares : ℚ) * prices.getD j 0
      | .short => cash + (trade.shares : ℚ) * (trade.entry_price - prices.getD j 0)
    else equity j
  let cash := cash + trade.profit
  let equity := fun j => if exit_idx + 1 ≤ j ∧ j < n then cash else equity j
  (cash, equity)

/-- `_calculate_equity_from_trades_vectorized` (`engine.py` lines 670-726):
replay a trade list into an equity trajectory, advancing cash by each
trade's recorded profit. -/
def calculate_equity_from_trades_vectorized (df : List Bar) (trades : List Trade)
    (direction : Direction) (cfg : Config) : List ℚ :=
  if trades = [] then (List.range df.length).map (fun _ => cfg.initial_capital)
  else
    (List.range df.length).map
      (trades.foldl (ceftStep (df.map Bar.close) (df.map Bar.date) df.length direction)
        (cfg.initial_capital, fun _ => cfg.initial_capital)).2

/-- The `sorted(valid_trades, key=entry_date)` step of
`_calculate_valid_equity_curve` (`engine.py` line 246); `mergeSort` is a
stable sort like Python's. -/
def sortTrades (trades : List Trade) : List Trade :=
  trades.mergeSort (fun a b => a.entry_date ≤ b.entry_date)

/-- One iteration of the trade loop of `_calculate_valid_equity_curve`
(`engine.py` lines 251-298); the `np.where` on the pre-entry slice only
overwrites cells still holding the initial capital, and cash is recomputed
from the entry and exit prices, commissions and (for Short) the lending
cost. -/
def cvecStep (prices : List ℚ) (dates : List ℤ) (n : ℕ) (commission lending_rate : ℚ)
    (direction : Direction) (cfg : Config) (st : ℚ × (ℕ → ℚ)) (trade : Trade) :
    ℚ × (ℕ → ℚ) :=
  let cash := st.1
  let entry_idx := searchsorted dates trade.entry_date
  let exit_idx := searchsorted dates trade.exit_date
  let equity := fun j =>
    if j < entry_idx ∧ st.2 j = cfg.initial_capital then cash else st.2 j
  let cost := (trade.shares : ℚ) * trade.entry_price
  let entry_commission := cost * commission
  let cash_after_entry := cash - cost - entry_commission
  let trade_end := min (exit_idx + 1) n
  let equity := fun j =>
    if entry_idx ≤ j ∧ j < trade_end then
      match direction with
      | .long => cash_after_entry + (trade.shares : ℚ) * prices.getD j 0
      | .short =>
          cash_after_entry + (trade.shares : ℚ) * (trade.entry_price - prices.getD j 0)
    else equity j
  let proceeds := (trade.shares : ℚ) * trade.exit_price
  let exit_commission := proceeds * commission
  let lending_cost :=
    match direction with
    | .short =>
        (trade.shares : ℚ) * trade.entry_price * lending_rate
          * ((trade.holding_days : ℚ) / 365)
    | .long => 0
  let cash := cash_after_entry + proceeds - exit_commission - lending_cost
  let equity := fun j => if exit_idx + 1 ≤ j ∧ j < n then cash else equity j
  (cash, equity)

/-- `_calculate_valid_equity_curve` (`engine.py` lines 212-300): replay only
the valid trades, sorted by entry date, recomputing costs from prices
(`slippage` is accepted and unused, as in the source). -/
def calculate_valid_equity_curve (df : List Bar) (valid_trades : List Trade)
    (commission slippage lending_rate : ℚ) (direction : Direction) (cfg : Config) :
    List ℚ :=
  if valid_trades = [] then (List.range df.length).map (fun _ => cfg.initial_capital)
  else
    (List.range df.length).map
      ((sortTrades valid_trades).foldl
        (cvecStep (df.map Bar.close) (df.map Bar.date) df.length commission lending_rate
          direction cfg)
        (cfg.initial_capital, fun _ => cfg.initial_capital)).2

/-- Floor-position-sizing discipline for a trade list replayed by
`_calculate_equity_from_trades_vectorized`: each trade has a nonnegative
share count and exit price, its entry cost fits in the cash available when
it is replayed, and its recorded profit is the price move times the share
count (the zero-cost form the simulators record when commission, slippage
and lending are zero); cash then advances by that profit, as in the source
loop. -/
def ceftOk : ℚ → List Trade → Prop
  | _, [] => True
  | cash, t :: ts =>
      0 ≤ (t.shares : ℚ) ∧ 0 ≤ t.exit_price ∧ (t.shares : ℚ) * t.entry_price ≤ cash ∧
      t.profit = (t.exit_price - t.entry_price) * (t.shares : ℚ) ∧
      ceftOk (cash + t.profit) ts

/-- The same discipline for the `_calculate_valid_equity_curve` loop, which
recomputes cash from the entry and exit prices themselves (zero commission;
for Long there is no lending cost). -/
def cvecOk : ℚ → List Trade → Prop
  | _, [] => True
  | cash, t :: ts =>
      0 ≤ (t.shares : ℚ) ∧ 0 ≤ t.exit_price ∧ (t.shares : ℚ) * t.entry_price ≤ cash ∧
      cvecOk (cash - (t.shares : ℚ) * t.entry_price + (t.shares : ℚ) * t.exit_price) ts

/-- The `valid_mask` condition of `_classify_trades`: holding days within the
target window. -/
def validMask (cfg : Config) (t : Trade) : Bool :=
  t.holding_days ≤ cfg.target_holding_days

/-- `_classify_trades` (`engine.py` lines 181-210): partition the trade list
into valid / forced / excluded by the numpy masks `valid`, `~valid & forced`,
`~valid & ~forced`. -/
def classify_trades (cfg : Config) (trades : List Trade) :
    List Trade × List Trade × List Trade :=
  if trades = [] then ([], [], [])
  else
    (trades.filter (validMask cfg),
     trades.filter (fun t => !(validMask cfg t) && t.forced_exit),
     trades.filter (fun t => !(validMask cfg t) && !(t.forced_exit)))

/-- Mean of a pandas series (`returns.mean()`). -/
def seriesMean (xs : List ℚ) : ℚ := xs.sum / xs.length

/-- Sample variance with `ddof = 1`; `none` models the NaN pandas yields for
fewer than two points. -/
def seriesVar (xs : List ℚ) : Option ℚ :=
  if xs.length < 2 then none
  else some ((xs.map (fun x => (x - seriesMean xs) ^ 2)).sum / ((xs.length : ℚ) - 1))

/-- Sample standard deviation (`returns.std()`), with `sq` standing for the
floating-point square root; `none` models NaN. -/
def seriesStd (sq : ℚ → ℚ) (xs : List ℚ) : Option ℚ := (seriesVar xs).map sq

/-- `PerformanceMetrics.calculate_sharpe_ratio` (`metrics.py` lines 82-111),
parameterized by the square-root function `sq`; `none` models a NaN result. -/
def calcSharpe (sq : ℚ → ℚ) (returns : List ℚ) (risk_free_rate : ℚ) : Option ℚ :=
  if returns.length = 0 ∨ seriesStd sq returns = some 0 then some 0
  else
    let mean_return := seriesMean returns
    let annual_return := mean_return * 252
    let annual_std := (seriesStd sq returns).map (fun s => s * sq 252)
    if annual_std = some 0 then some 0
    else annual_std.map (fun s => (annual_return - risk_free_rate) / s)

lemma length_filter_masks (p q : Trade → Bool) (l : List Trade) :
    (l.filter p).length + (l.filter (fun t => !(p t) && q t)).length
      + (l.filter (fun t => !(p t) && !(q t))).length = l.length := by
  induction l with
  | nil => simp
  | cons a l ih =>
      cases hp : p a <;> cases hq : q a <;>
        simp [List.filter_cons, hp, hq] <;> omega

/-- C5: `_classify_trades` is a total partition: a trade with
`holding_days ≤ target_days` goes to valid, otherwise to forced when
`forced_exit` is set and to excluded when it is not; membership in each
bucket is exactly characterized, and the three bucket sizes sum to the
number of trades. -/
theorem classify_trades_total_partition (cfg : Config) (trades : List Trade) :
    (classify_trades cfg trades).1.length + (classify_trades cfg trades).2.1.length
        + (classify_trades cfg trades).2.2.length = trades.length ∧
    (∀ t, t ∈ (classify_trades cfg trades).1 ↔
        t ∈ trades ∧ t.holding_days ≤ cfg.target_holding_days) ∧
    (∀ t, t ∈ (classify_trades cfg trades).2.1 ↔
        t ∈ trades ∧ ¬ t.holding_days ≤ cfg.target_holding_days ∧ t.forced_exit = true) ∧
    (∀ t, t ∈ (classify_trades cfg trades).2.2 ↔
        t ∈ trades ∧ ¬ t.holding_days ≤ cfg.target_holding_days ∧ t.forced_exit = false) := by
  by_cases h : trades = []
  · subst h; simp [classify_trades]
  · refine ⟨?_, ?_, ?_, ?_⟩
    · simpa [classify_trades, h] using
        length_filter_masks (validMask cfg) Trade.forced_exit trades
    · intro t
      simp [classify_trades, h, List.mem_filter, validMask, decide_eq_true_eq]
    · intro t
      simp [classify_trades, h, List.mem_filter, validMask, decide_eq_true_eq]
    · intro t
      simp [classify_trades, h, List.mem_filter, validMask, decide_eq_true_eq]

/-- C2: exit-candidate resolution is earliest-bar-wins with tie order
Signal, then TrailingStop, then ForcedMax: the kept trigger fires no later
than any other trigger, and a trigger listed later in that order overrides
the current candidate only when it fires strictly before it. -/
theorem resolveExit_earliest_bar_wins (n : ℕ) (sigFirst trailIdx forcedIdx : Option ℕ) :
    ((resolveExit n sigFirst trailIdx forcedIdx).2.2 = .signal ∨
        (resolveExit n sigFirst trailIdx forcedIdx).2.2 = .end_of_data →
      (resolveExit n sigFirst trailIdx forcedIdx).1 = sigFirst.getD (n - 1) ∧
      (∀ t ∈ trailIdx, sigFirst.getD (n - 1) ≤ t) ∧
      (∀ f ∈ forcedIdx, sigFirst.getD (n - 1) ≤ f)) ∧
    ((resolveExit n sigFirst trailIdx forcedIdx).2.2 = .trailing_stop →
      trailIdx = some (resolveExit n sigFirst trailIdx forcedIdx).1 ∧
      (resolveExit n sigFirst trailIdx forcedIdx).1 < sigFirst.getD (n - 1) ∧
      (∀ f ∈ forcedIdx, (resolveExit n sigFirst trailIdx forcedIdx).1 ≤ f)) ∧
    ((resolveExit n sigFirst trailIdx forcedIdx).2.2 = .forced_max →
      forcedIdx = some (resolveExit n sigFirst trailIdx forcedIdx).1 ∧
      (resolveExit n sigFirst trailIdx forcedIdx).1 < sigFirst.getD (n - 1) ∧
      (∀ t ∈ trailIdx, (resolveExit n sigFirst trailIdx forcedIdx).1 < t)) := by
  rcases trailIdx with _ | t <;> rcases forcedIdx with _ | f <;>
    simp only [resolveExit, Option.mem_def, Option.some.injEq] <;>
    split_ifs <;> simp_all <;> omega

/-- Witness for C2 at concrete candidates: with the signal exit at bar 5 and
both the trailing stop and the forced exit at bar 3, the trailing stop (the
earlier trigger considered first) is kept. -/
theorem resolveExit_earliest_bar_wins_witness :
    (resolveExit 10 (some 5) (some 3) (some 3)).2.2 = .trailing_stop ∧
    some 3 = some (resolveExit 10 (some 5) (some 3) (some 3)).1 ∧
    (resolveExit 10 (some 5) (some 3) (some 3)).1 < 5 ∧
    (∀ f ∈ (some 3 : Option ℕ), (resolveExit 10 (some 5) (some 3) (some 3)).1 ≤ f) := by
  have h := (resolveExit_earliest_bar_wins 10 (some 5) (some 3) (some 3)).2.1
  have hr : (resolveExit 10 (some 5) (some 3) (some 3)).2.2 = .trailing_stop := by decide
  exact ⟨hr, (h hr).1.symm ▸ by decide, (h hr).2.1, (h hr).2.2⟩

/-- C8 (amended): with `sq` standing for the square root, the Sharpe ratio
is 0 for an empty series, 0 for zero sample deviation, NaN (`none`) for a
single point, and otherwise `(mean × 252) / (std × sq 252)`. -/
theorem calcSharpe_spec (sq : ℚ → ℚ) (h0 : sq 0 = 0) (returns : List ℚ) :
    (returns.length = 0 → calcSharpe sq returns 0 = some 0) ∧
    (seriesVar returns = some 0 → calcSharpe sq returns 0 = some 0) ∧
    (returns.length = 1 → calcSharpe sq returns 0 = none) ∧
    (∀ v, seriesVar returns = some v → v ≠ 0 → sq v * sq 252 ≠ 0 →
      calcSharpe sq returns 0 =
        some (seriesMean returns * 252 / (sq v * sq 252))) := by
  refine ⟨?_, ?_, ?_, ?_⟩
  · intro h
    have : returns = [] := List.eq_nil_of_length_eq_zero h
    subst this
    simp [calcSharpe, seriesStd, seriesVar]
  · intro h
    simp [calcSharpe, seriesStd, h, h0]
  · intro h
    have hv : seriesVar returns = none := by
      simp [seriesVar, h]
    simp [calcSharpe, seriesStd, hv, h]
  · intro v hv hv0 hs
    have hsq : sq v ≠ 0 := fun h => hs (by simp [h])
    have hlen : returns.length ≠ 0 := by
      intro h
      simp [seriesVar, h] at hv
    simp only [calcSharpe, seriesStd, hv, Option.map_some']
    rw [if_neg, if_neg]
    · simp
    · simp [hs]
    · simp [hlen, hsq]

lemma mem_of_head?_eq {α : Type*} {l : List α} {a : α} (h : l.head? = some a) : a ∈ l := by
  cases l with
  | nil => simp at h
  | cons x xs =>
      simp only [List.head?_cons, Option.some.injEq] at h
      exact h ▸ List.mem_cons_self x xs

lemma mem_drop_range {start stop j : ℕ} (h : j ∈ (List.range stop).drop start) :
    start ≤ j ∧ j < stop := by
  obtain ⟨i, hi, hij⟩ := List.mem_iff_getElem.1 h
  rw [List.getElem_drop] at hij
  rw [List.getElem_range] at hij
  rw [List.length_drop, List.length_range] at hi
  omega

lemma signalIdx_lt {signals : List ℤ} {v : ℤ} {j : ℕ} (h : j ∈ signalIdx signals v) :
    j < signals.length := by
  unfold signalIdx at h
  exact List.mem_range.1 (List.mem_of_mem_filter h)

lemma firstExitAfter_some {exits : List ℕ} {e j : ℕ} (h : firstExitAfter exits e = some j) :
    e < j ∧ j ∈ exits := by
  unfold firstExitAfter at h
  have hm := mem_of_head?_eq h
  refine ⟨?_, List.mem_of_mem_filter hm⟩
  simpa using List.of_mem_filter hm

lemma findFirstIdx_some {start stop : ℕ} {p : ℕ → Bool} {j : ℕ}
    (h : findFirstIdx start stop p = some j) : start ≤ j ∧ j < stop := by
  unfold findFirstIdx at h
  exact mem_drop_range (List.mem_of_mem_filter (mem_of_head?_eq h))

lemma trailingStopIdx_some {ctx : VCtx} {e : ℕ} {ep : ℚ} {j : ℕ}
    (h : trailingStopIdx ctx e ep = some j) : e + 1 ≤ j ∧ j < ctx.n := by
  unfold trailingStopIdx at h
  split_ifs at h
  cases hdir : ctx.direction <;> rw [hdir] at h <;> exact findFirstIdx_some h

lemma forcedExitIdx_some {ctx : VCtx} {e j : ℕ} (h : forcedExitIdx ctx e = some j) :
    e + 1 ≤ j ∧ j < ctx.n := by
  unfold forcedExitIdx at h
  have hb := findFirstIdx_some h
  exact ⟨hb.1, lt_of_lt_of_le hb.2 (min_le_right _ _)⟩

lemma resolveExit_fst_cases (n : ℕ) (s t f : Option ℕ) :
    (resolveExit n s t f).1 = s.getD (n - 1) ∨
    t = some (resolveExit n s t f).1 ∨ f = some (resolveExit n s t f).1 := by
  rcases t with _ | t <;> rcases f with _ | f <;>
    simp only [resolveExit] <;> split_ifs <;> simp_all

lemma foldl_inv {σ α : Type*} {f : σ → α → σ} {P : σ → Prop} :
    ∀ (l : List α) (s : σ), P s → (∀ s' a, a ∈ l → P s' → P (f s' a)) → P (l.foldl f s)
  | [], _, hs, _ => hs
  | a :: l, s, hs, hstep =>
      foldl_inv l (f s a) (hstep s a (List.mem_cons_self a l) hs)
        (fun s' b hb => hstep s' b (List.mem_cons_of_mem a hb))

lemma processEntry_spec (ctx : VCtx) (st : VState) (e : ℕ)
    (hex : ∀ j ∈ ctx.exits, j < ctx.n) (he : e < ctx.n) :
    processEntry ctx st e = st ∨
    (st.current_pos ≤ e ∧ ∃ x, e ≤ x ∧ x < ctx.n ∧
      (processEntry ctx st e).current_pos = x + 1 ∧
      ((processEntry ctx st e).trades = st.trades ∨
       ∃ tr : Trade,
         tr.entry_date = ctx.dates.getD e 0 ∧
         tr.entry_price = ctx.closes.getD e 0 * (1 + ctx.slippage) ∧
         tr.exit_date = ctx.dates.getD x 0 ∧
         tr.exit_price = ctx.closes.getD x 0 * (1 - ctx.slippage) ∧
         (processEntry ctx st e).trades = st.trades ++ [tr])) := by
  by_cases h1 : e < st.current_pos
  · left
    rw [processEntry, if_pos h1]
  · right
    refine ⟨Nat.not_lt.mp h1, ?_⟩
    have hx : e ≤ (resolveExit ctx.n (firstExitAfter ctx.exits e)
          (trailingStopIdx ctx e (ctx.closes.getD e 0 * (1 + ctx.slippage)))
          (forcedExitIdx ctx e)).1 ∧
        (resolveExit ctx.n (firstExitAfter ctx.exits e)
          (trailingStopIdx ctx e (ctx.closes.getD e 0 * (1 + ctx.slippage)))
          (forcedExitIdx ctx e)).1 < ctx.n := by
      rcases resolveExit_fst_cases ctx.n (firstExitAfter ctx.exits e)
          (trailingStopIdx ctx e (ctx.closes.getD e 0 * (1 + ctx.slippage)))
          (forcedExitIdx ctx e) with hc | hc | hc
      · rw [hc]
        rcases hs : firstExitAfter ctx.exits e with _ | j
        · simp only [Option.getD_none]
          omega
        · have hj := firstExitAfter_some hs
          have hjn := hex j hj.2
          simp only [Option.getD_some]
          omega
      · have ht := trailingStopIdx_some hc
        omega
      · have hf := forcedExitIdx_some hc
        omega
    refine ⟨_, hx.1, hx.2, ?_⟩
    simp only [processEntry]
    rw [if_neg h1]
    by_cases hp :
        (if 0 < ctx.closes.getD e 0 * (1 + ctx.slippage) then
            pyInt (st.cash / (ctx.closes.getD e 0 * (1 + ctx.slippage)))
          else 0) = 0
    · rw [if_pos hp]
      exact ⟨rfl, Or.inl rfl⟩
    · rw [if_neg hp]
      exact ⟨rfl, Or.inr ⟨_, rfl, rfl, rfl, rfl, rfl⟩⟩

/-- Bars one calendar day apart with equal high/low/close, for concrete runs. -/
def dailyBars (cs : List ℚ) : List Bar :=
  cs.enum.map (fun p => { date := (p.1 : ℤ) * ns_per_day, high := p.2, low := p.2, close := p.2 })

/-- Baseline configuration: the `config.yaml` defaults with trailing stop off. -/
def cfgBase : Config :=
  { initial_capital := 1000, target_holding_days := 14, max_holding_days := 30,
    trailing_stop_enabled := false, trailing_stop_long := 1/10, trailing_stop_short := 1/10 }

/-- Baseline configuration with the trailing stop enabled (the source default). -/
def cfgTrail : Config := { cfgBase with trailing_stop_enabled := true }

def cfgCash50 : Config := { cfgBase with initial_capital := 50 }

def cfgCash100 : Config := { cfgBase with initial_capital := 100 }

def barsDown : List Bar := dailyBars [100, 80, 80, 80]

def sigDown : List ℤ := [1, 0, 0, -1]

def barsNeg : List Bar := dailyBars [-5, -5, -5]

def sigNeg : List ℤ := [1, 0, -1]

def barsSkip : List Bar := dailyBars [100, 100, 10, 10, 10, 10, 10]

def sigSkip : List ℤ := [1, 0, 1, 0, 0, -1, 0]

def barsFlat3 : List Bar := dailyBars [100, 100, 100]

def sigFlat3 : List ℤ := [1, 0, -1]

def barsShortLoss : List Bar := dailyBars [100, 250]

def barsPenny : List Bar := dailyBars [1, 1/100]

def sigEnterHold : List ℤ := [1, 0]

def barsOne : List Bar := dailyBars [10]

def sigOne : List ℤ := [1]

def barsLate : List Bar := dailyBars [100, 100, 10]

def sigLate : List ℤ := [1, 0, 1]

/-- The trade the simulators record on `barsDown`/`sigDown` with zero costs:
enter bar 0 at 100 with 10 shares, exit bar 3 at 80 for a −200 profit. -/
def tradeDown : Trade :=
  { entry_date := 0, exit_date := 3 * ns_per_day, entry_price := 100, exit_price := 80,
    shares := 10, profit := -200, profit_pct := -20, holding_days := 3,
    forced_exit := false, within_target_period := true, exit_reason := .signal }

/-- C4: trades produced by the vectorized simulator never overlap in time:
in the produced (entry-ordered) trade list, each trade's exit timestamp is at
most the next trade's entry timestamp, so at most one position is open at
any bar. -/
theorem vectorized_trades_non_overlapping (df : List Bar) (signals : List ℤ)
    (commission slippage lending_rate : ℚ) (direction : Direction) (cfg : Config)
    (hlen : signals.length = df.length)
    (hmono : (df.map Bar.date).Chain' (· < ·)) :
    (execute_trades_vectorized df signals commission slippage lending_rate
        direction cfg).Chain'
      (fun a b => a.exit_date ≤ b.entry_date) := by
  by_cases hn : df.length = 0
  · simp [execute_trades_vectorized, hn]
  · have hctx : (mkVCtx df signals commission slippage lending_rate direction cfg).n
        = df.length := rfl
    set ctx := mkVCtx df signals commission slippage lending_rate direction cfg with hctxdef
    have hex : ∀ j ∈ ctx.exits, j < ctx.n := by
      intro j hj
      have h := signalIdx_lt hj
      omega
    have hdlen : ctx.dates.length = ctx.n := by
      simp [hctxdef, mkVCtx]
    have hpair := (List.chain'_iff_pairwise).1 hmono
    have hdates : ∀ i j : ℕ, i < j → j < ctx.n →
        ctx.dates.getD i 0 ≤ ctx.dates.getD j 0 := by
      intro i j hij hj
      have hi' : i < ctx.dates.length := by omega
      have hj' : j < ctx.dates.length := by omega
      rw [List.getD_eq_get _ _ hi', List.getD_eq_get _ _ hj']
      exact le_of_lt (List.pairwise_iff_get.1 hpair ⟨i, hi'⟩ ⟨j, hj'⟩ hij)
    rw [execute_trades_vectorized, if_neg hn]
    refine (foldl_inv (f := processEntry ctx)
      (P := fun st : VState =>
        st.trades.Chain' (fun a b => a.exit_date ≤ b.entry_date) ∧
        ∀ x, st.trades.getLast? = some x →
          ∀ j, st.current_pos ≤ j → j < ctx.n → x.exit_date ≤ ctx.dates.getD j 0)
      (signalIdx signals 1)
      { cash := cfg.initial_capital, current_pos := 0, trades := [] }
      ⟨List.chain'_nil, fun x hx => by simp at hx⟩ ?_).1
    intro st e he hP
    have hen : e < ctx.n := by
      have h := signalIdx_lt he
      omega
    ·
        rcases processEntry_spec ctx st e hex hen with heq | ⟨hcp, x, hx1, hx2, hcp2, htr⟩
        · rw [heq]; exact hP
        · rcases htr with htr | ⟨tr, h1, _h2, h3, _h4, h5⟩
          · refine ⟨htr ▸ hP.1, ?_⟩
            intro y hy j hj hjn
            rw [htr] at hy
            exact hP.2 y hy j (by omega) hjn
          · constructor
            · rw [h5, List.chain'_append]
              refine ⟨hP.1, List.chain'_singleton tr, ?_⟩
              intro y hy z hz
              simp only [List.head?_cons, Option.mem_def, Option.some.injEq] at hz
              subst hz
              rw [h1]
              exact hP.2 y hy e hcp hen
            · intro y hy j hj hjn
              rw [h5, List.getLast?_concat] at hy
              rw [Option.some.injEq] at hy
              subst hy
              rw [h3]
              rw [hcp2] at hj
              exact hdates x j (by omega) hjn

/-- Witness for C4 at a concrete run: a trailing-stop run over four falling
bars yields a non-overlapping trade list. -/
theorem vectorized_trades_non_overlapping_witness :
    (execute_trades_vectorized barsDown sigDown 0 0 0 .long cfgTrail).Chain'
      (fun a b => a.exit_date ≤ b.entry_date) := by
  apply vectorized_trades_non_overlapping
  · rfl
  · norm_num [barsDown, dailyBars, ns_per_day, List.enum]

/-- C7 (amended): every trade produced by the vectorized simulator — Long or
Short alike — has entry price = close × (1 + slippage) at its entry bar and
exit price = close × (1 − slippage) at its exit bar; the adjustment does not
depend on the direction. -/
theorem vectorized_slippage_direction_independent (df : List Bar) (signals : List ℤ)
    (commission slippage lending_rate : ℚ) (direction : Direction) (cfg : Config)
    (hlen : signals.length = df.length) :
    ∀ t ∈ execute_trades_vectorized df signals commission slippage lending_rate direction cfg,
      ∃ i j, i < df.length ∧ j < df.length ∧
        t.entry_date = (df.map Bar.date).getD i 0 ∧
        t.entry_price = (df.map Bar.close).getD i 0 * (1 + slippage) ∧
        t.exit_date = (df.map Bar.date).getD j 0 ∧
        t.exit_price = (df.map Bar.close).getD j 0 * (1 - slippage) := by
  by_cases hn : df.length = 0
  · rw [execute_trades_vectorized, if_pos hn]
    intro t ht
    simp at ht
  · set ctx := mkVCtx df signals commission slippage lending_rate direction cfg with hctxdef
    have hctx : ctx.n = df.length := rfl
    have hex : ∀ j ∈ ctx.exits, j < ctx.n := by
      intro j hj
      have h := signalIdx_lt hj
      omega
    rw [execute_trades_vectorized, if_neg hn]
    refine foldl_inv (f := processEntry ctx)
      (P := fun st : VState =>
        ∀ t ∈ st.trades, ∃ i j, i < df.length ∧ j < df.length ∧
          t.entry_date = (df.map Bar.date).getD i 0 ∧
          t.entry_price = (df.map Bar.close).getD i 0 * (1 + slippage) ∧
          t.exit_date = (df.map Bar.date).getD j 0 ∧
          t.exit_price = (df.map Bar.close).getD j 0 * (1 - slippage))
      (signalIdx signals 1)
      { cash := cfg.initial_capital, current_pos := 0, trades := [] }
      (by intro t ht; simp at ht) ?_
    intro st e he hP
    have hen : e < ctx.n := by
      have h := signalIdx_lt he
      omega
    rcases processEntry_spec ctx st e hex hen with heq | ⟨_hcp, x, _hx1, hx2, _hcp2, htr⟩
    · rw [heq]; exact hP
    · rcases htr with htr | ⟨tr, h1, h2, h3, h4, h5⟩
      · intro t ht
        rw [htr] at ht
        exact hP t ht
      · intro t ht
        rw [h5] at ht
        rcases List.mem_append.1 ht with ht | ht
        · exact hP t ht
        · simp only [List.mem_singleton] at ht
          subst ht
          exact ⟨e, x, hen, hx2, h1, h2, h3, h4⟩

/-- Witness for C7 on a concrete Short run over constant-price 100 bars with
slippage 1/100: via the theorem, the recorded entry price is
100 × (1 + slippage) and the recorded exit price is 100 × (1 − slippage). -/
theorem vectorized_slippage_direction_independent_witness :
    ((execute_trades_vectorized barsFlat3 sigFlat3 0 (1/100) 0 .short cfgBase).getD 0
        default).entry_price = 100 * (1 + 1/100) ∧
    ((execute_trades_vectorized barsFlat3 sigFlat3 0 (1/100) 0 .short cfgBase).getD 0
        default).exit_price = 100 * (1 - 1/100) := by
  have hne : (execute_trades_vectorized barsFlat3 sigFlat3 0 (1/100) 0 .short cfgBase) ≠ [] := by
    norm_num [execute_trades_vectorized, mkVCtx, processEntry, signalIdx, firstExitAfter,
      trailingStopIdx, forcedExitIdx, resolveExit, findFirstIdx, cummaxHigh, cumminLow,
      daysBetween_eq, ns_per_day, pyInt, barsFlat3, sigFlat3, cfgBase, dailyBars, List.enum,
      List.range_succ, List.filter_append, List.find?_cons]
  have hmem : ((execute_trades_vectorized barsFlat3 sigFlat3 0 (1/100) 0 .short cfgBase).getD 0
      default) ∈ execute_trades_vectorized barsFlat3 sigFlat3 0 (1/100) 0 .short cfgBase := by
    cases hl : execute_trades_vectorized barsFlat3 sigFlat3 0 (1/100) 0 .short cfgBase with
    | nil => exact absurd hl hne
    | cons a l => exact List.mem_cons_self a l
  obtain ⟨i, j, hi, hj, _, hp, _, hq⟩ :=
    vectorized_slippage_direction_independent barsFlat3 sigFlat3 0 (1/100) 0 .short cfgBase rfl
      _ hmem
  have hi3 : i < 3 := by
    simpa [barsFlat3, dailyBars] using hi
  have hj3 : j < 3 := by
    simpa [barsFlat3, dailyBars] using hj
  have hci : (barsFlat3.map Bar.close).getD i 0 = 100 := by
    interval_cases i <;> norm_num [barsFlat3, dailyBars, List.enum]
  have hcj : (barsFlat3.map Bar.close).getD j 0 = 100 := by
    interval_cases j <;> norm_num [barsFlat3, dailyBars, List.enum]
  rw [hp, hq, hci, hcj]
  exact ⟨rfl, rfl⟩

/-- C7 counterexample: on a Short run with slippage 1/100 over constant
price 100, the only trade's entry price is 101 = 100 × (1 + slippage),
not 99 = 100 × (1 − slippage) as the claim states for Short. -/
theorem short_entry_price_counterexample :
    ((execute_trades_vectorized barsFlat3 sigFlat3 0 (1/100) 0 .short cfgBase).map
        (fun t => t.entry_price)) = [101] ∧ (101 : ℚ) ≠ 100 * (1 - 1/100) := by
  constructor
  · norm_num [execute_trades_vectorized, mkVCtx, processEntry, signalIdx, firstExitAfter,
      trailingStopIdx, forcedExitIdx, resolveExit, findFirstIdx, cummaxHigh, cumminLow,
      daysBetween_eq, ns_per_day, pyInt, barsFlat3, sigFlat3, cfgBase, dailyBars, List.enum,
      List.range_succ, List.filter_append, List.find?_cons]
  · norm_num

lemma pbStep_trades_cases (c s l : ℚ) (d : Direction) (cfg : Config) (st : PState)
    (b : Bar × ℤ) :
    (pbStep c s l d cfg st b).trades = st.trades ∨
    ∃ tr : Trade, tr.exit_reason ≠ .trailing_stop ∧
      (pbStep c s l d cfg st b).trades = st.trades ++ [tr] := by
  simp only [pbStep, pbEnter, pbExit]
  split_ifs <;>
    first
      | exact Or.inl rfl
      | exact Or.inr ⟨_, by simp, rfl⟩

lemma execute_trades_no_trailing (df : List Bar) (signals : List ℤ)
    (c s l : ℚ) (d : Direction) (cfg : Config) :
    ∀ t ∈ (execute_trades df signals c s l d cfg).1, t.exit_reason ≠ .trailing_stop := by
  have hF : ∀ t ∈ ((df.zip signals).foldl (pbStep c s l d cfg)
      { cash := cfg.initial_capital, position := 0, entry_price := 0,
        entry_date := none, trades := [], equity := [] }).trades,
      t.exit_reason ≠ .trailing_stop := by
    refine foldl_inv (f := pbStep c s l d cfg)
      (P := fun st : PState => ∀ t ∈ st.trades, t.exit_reason ≠ .trailing_stop)
      (df.zip signals)
      { cash := cfg.initial_capital, position := 0, entry_price := 0,
        entry_date := none, trades := [], equity := [] }
      (by intro t ht; simp at ht) ?_
    intro st b _ hP
    rcases pbStep_trades_cases c s l d cfg st b with h | ⟨tr, htr, h⟩
    · intro t ht; rw [h] at ht; exact hP t ht
    · intro t ht
      rw [h] at ht
      rcases List.mem_append.1 ht with ht | ht
      · exact hP t ht
      · simp only [List.mem_singleton] at ht
        subst ht
        exact htr
  simp only [execute_trades]
  rcases df.getLast? with _ | lastBar
  · exact hF
  · dsimp only
    split_ifs with hp
    · intro t ht
      rcases List.mem_append.1 ht with ht | ht
      · exact hF t ht
      · simp only [List.mem_singleton] at ht
        subst ht
        exact fun h => ExitReason.noConfusion h
    · exact hF

lemma vecDown_eval :
    execute_trades_vectorized barsDown sigDown 0 0 0 .long cfgTrail =
      [{ entry_date := 0, exit_date := 86400000000000, entry_price := 100, exit_price := 80,
         shares := 10, profit := -200, profit_pct := -20, holding_days := 1,
         forced_exit := false, within_target_period := true,
         exit_reason := .trailing_stop }] := by
  norm_num [execute_trades_vectorized, mkVCtx, processEntry, signalIdx, firstExitAfter,
    trailingStopIdx, forcedExitIdx, resolveExit, findFirstIdx, cummaxHigh, cumminLow,
    daysBetween_eq, ns_per_day, pyInt, barsDown, sigDown, cfgTrail, cfgBase, dailyBars, List.enum,
    List.range_succ, List.filter_append, List.find?_cons]

lemma pbDown_eval :
    (execute_trades barsDown sigDown 0 0 0 .long cfgTrail).1 =
      [{ entry_date := 0, exit_date := 259200000000000, entry_price := 100, exit_price := 80,
         shares := 10, profit := -200, profit_pct := -20, holding_days := 3,
         forced_exit := false, within_target_period := true, exit_reason := .signal }] := by
  norm_num [execute_trades, pbStep, pbMark, pbForce, pbEnter, pbExit, daysBetween_eq, ns_per_day, pyInt, barsDown, sigDown,
    cfgTrail, cfgBase, dailyBars, List.enum]

/-- C1 (amended): the two simulation strategies are not interchangeable: the
per-bar scan implements no trailing stop, so no trade it ever produces has a
TrailingStop exit, while the batch/candidate-resolution scan can produce one;
on such inputs the two trade lists differ. -/
theorem simulators_not_interchangeable :
    (∀ (df : List Bar) (signals : List ℤ) (c s l : ℚ) (d : Direction) (cfg : Config),
      ∀ t ∈ (execute_trades df signals c s l d cfg).1, t.exit_reason ≠ .trailing_stop) ∧
    (∃ t ∈ execute_trades_vectorized barsDown sigDown 0 0 0 .long cfgTrail,
      t.exit_reason = .trailing_stop) ∧
    execute_trades_vectorized barsDown sigDown 0 0 0 .long cfgTrail ≠
      (execute_trades barsDown sigDown 0 0 0 .long cfgTrail).1 := by
  refine ⟨execute_trades_no_trailing, ?_, ?_⟩
  · rw [vecDown_eval]
    exact ⟨_, List.mem_singleton_self _, rfl⟩
  · rw [vecDown_eval, pbDown_eval]
    simp

/-- Witness for C1 on a concrete flat-price run: the per-bar simulator's
produced trade does not carry a TrailingStop exit reason. -/
theorem simulators_not_interchangeable_witness :
    ((execute_trades barsFlat3 sigFlat3 0 0 0 .long cfgBase).1.getD 0
        default).exit_reason ≠ .trailing_stop := by
  have hne : (execute_trades barsFlat3 sigFlat3 0 0 0 .long cfgBase).1 ≠ [] := by
    norm_num [execute_trades, pbStep, pbMark, pbForce, pbEnter, pbExit, daysBetween_eq, ns_per_day, pyInt, barsFlat3, sigFlat3,
      cfgBase, dailyBars, List.enum]
  have hmem : ((execute_trades barsFlat3 sigFlat3 0 0 0 .long cfgBase).1.getD 0 default)
      ∈ (execute_trades barsFlat3 sigFlat3 0 0 0 .long cfgBase).1 := by
    cases hl : (execute_trades barsFlat3 sigFlat3 0 0 0 .long cfgBase).1 with
    | nil => exact absurd hl hne
    | cons a t => exact List.mem_cons_self a t
  exact simulators_not_interchangeable.1 barsFlat3 sigFlat3 0 0 0 .long cfgBase _ hmem

/-- C1 counterexample: with the trailing stop enabled (the source default),
the per-bar and the batch simulators return different trade lists on four
falling bars — the batch scan exits at bar 1 by trailing stop, the per-bar
scan only at bar 3 by signal. -/
theorem simulators_differ_counterexample :
    execute_trades_vectorized barsDown sigDown 0 0 0 .long cfgTrail ≠
      (execute_trades barsDown sigDown 0 0 0 .long cfgTrail).1 := by
  rw [vecDown_eval, pbDown_eval]
  simp

/-- Witness for C8: at `sq = id` the two-point series `[1, 3]` has mean 2 and
sample variance 2, and the Sharpe formula evaluates to (2 × 252)/(2 × 252) = 1. -/
theorem calcSharpe_spec_witness : calcSharpe (fun x => x) [1, 3] 0 = some 1 := by
  have h := (calcSharpe_spec (fun x => x) rfl [1, 3]).2.2.2 2
    (by norm_num [seriesVar, seriesMean]) (by norm_num) (by norm_num)
  rw [h]
  norm_num [seriesMean]

/-- C3 (amended): non-positive prices are not rejected: on length-aligned
inputs whose closes are all nonpositive (a malformed price series) the
vectorized scan silently returns an empty trade list — its only guard maps a
nonpositive entry price to a zero share count — rather than reporting an
error.  (Mismatched lengths, by contrast, do abort the Python source, via a
raw IndexError, so they are excluded here by the length hypothesis.) -/
theorem nonpositive_prices_processed_silently (df : List Bar) (signals : List ℤ)
    (commission slippage lending_rate : ℚ) (direction : Direction) (cfg : Config)
    (_hlen : signals.length = df.length)
    (hc : ∀ i, (df.map Bar.close).getD i 0 ≤ 0) (hs : 0 ≤ 1 + slippage) :
    execute_trades_vectorized df signals commission slippage lending_rate direction cfg
      = [] := by
  by_cases hn : df.length = 0
  · rw [execute_trades_vectorized, if_pos hn]
  · set ctx := mkVCtx df signals commission slippage lending_rate direction cfg with hctxdef
    rw [execute_trades_vectorized, if_neg hn]
    have key : ∀ (st : VState) (e : ℕ), st.trades = [] → (processEntry ctx st e).trades = [] := by
      intro st e hst
      by_cases h1 : e < st.current_pos
      · rw [processEntry, if_pos h1]
        exact hst
      · have hep : ctx.closes.getD e 0 * (1 + ctx.slippage) ≤ 0 :=
          mul_nonpos_iff.mpr (Or.inr ⟨hc e, hs⟩)
        have hpos : (if 0 < ctx.closes.getD e 0 * (1 + ctx.slippage) then
            pyInt (st.cash / (ctx.closes.getD e 0 * (1 + ctx.slippage))) else 0) = 0 :=
          if_neg (not_lt.mpr hep)
        simp only [processEntry]
        rw [if_neg h1, if_pos hpos]
        exact hst
    refine foldl_inv (f := processEntry ctx) (P := fun st : VState => st.trades = [])
      (signalIdx signals 1)
      { cash := cfg.initial_capital, current_pos := 0, trades := [] } rfl ?_
    intro st e _ hP
    exact key st e hP

/-- Witness for C3: the all-negative price series is processed without any
error and yields the empty trade list. -/
theorem nonpositive_prices_processed_silently_witness :
    execute_trades_vectorized barsNeg sigNeg 0 0 0 .long cfgBase = [] := by
  apply nonpositive_prices_processed_silently
  · rfl
  · intro i
    have hm : barsNeg.map Bar.close = [-5, -5, -5] := by
      norm_num [barsNeg, dailyBars, List.enum]
    rw [hm]
    rcases i with _ | _ | _ | i <;> norm_num [List.getD]
  · norm_num

/-- C3 counterexample: fed three bars with close −5 (a malformed series),
the per-bar simulator neither validates nor aborts: it returns the empty
trade list together with a fully populated (meaningless) equity trajectory. -/
theorem malformed_input_counterexample :
    barsNeg.map Bar.close = [-5, -5, -5] ∧
    execute_trades barsNeg sigNeg 0 0 0 .long cfgBase = ([], [1000, 2000, 2000]) := by
  constructor
  · norm_num [barsNeg, dailyBars, List.enum]
  · norm_num [execute_trades, pbStep, pbMark, pbForce, pbEnter, pbExit, daysBetween_eq,
      ns_per_day, pyInt, barsNeg, sigNeg, cfgBase, dailyBars, List.enum, Int.ceil_neg]

/-- C6 (amended): when an Enter candidate yields share count 0, the
vectorized simulator records no trade and deploys no capital, but resumes
scanning only after the bar at which that candidate's exit was resolved —
not at the next bar — so Enter signals before that resolved exit are
ignored. -/
theorem zero_share_entry_skips_candidate (ctx : VCtx) (st : VState) (e : ℕ)
    (h1 : st.current_pos ≤ e)
    (h2 : (if 0 < ctx.closes.getD e 0 * (1 + ctx.slippage) then
        pyInt (st.cash / (ctx.closes.getD e 0 * (1 + ctx.slippage)))
      else 0) = 0) :
    processEntry ctx st e =
      { st with current_pos :=
          (resolveExit ctx.n (firstExitAfter ctx.exits e)
            (trailingStopIdx ctx e (ctx.closes.getD e 0 * (1 + ctx.slippage)))
            (forcedExitIdx ctx e)).1 + 1 } := by
  simp only [processEntry]
  rw [if_neg (Nat.not_lt.mpr h1), if_pos h2]

def ctxSkip : VCtx := mkVCtx barsSkip sigSkip 0 0 0 .long cfgCash50

/-- Witness for C6: with capital 50 and entry price 100 the share count is
0, and the scan state jumps to one past the resolved exit index. -/
theorem zero_share_entry_skips_candidate_witness :
    processEntry ctxSkip { cash := 50, current_pos := 0, trades := [] } 0 =
      { cash := 50,
        current_pos := (resolveExit ctxSkip.n (firstExitAfter ctxSkip.exits 0)
          (trailingStopIdx ctxSkip 0 (ctxSkip.closes.getD 0 0 * (1 + ctxSkip.slippage)))
          (forcedExitIdx ctxSkip 0)).1 + 1,
        trades := [] } :=
  zero_share_entry_skips_candidate ctxSkip { cash := 50, current_pos := 0, trades := [] } 0
    (le_refl 0)
    (by norm_num [ctxSkip, mkVCtx, barsSkip, dailyBars, List.enum, pyInt])

/-- C6 counterexample: with capital 50, an unaffordable Enter at bar 0 and
an affordable Enter at bar 2 (price 10, floor(50/10) = 5 > 0) before the
candidate's resolved exit at bar 5, the vectorized simulator opens no
position at all, while the per-bar scan does open one — so a later Enter on
a subsequent bar can not always still open a position. -/
theorem zero_share_entry_counterexample :
    execute_trades_vectorized barsSkip sigSkip 0 0 0 .long cfgCash50 = [] ∧
    (execute_trades barsSkip sigSkip 0 0 0 .long cfgCash50).1.length = 1 ∧
    (0 : ℤ) < pyInt (50 / 10) := by
  refine ⟨?_, ?_, ?_⟩
  · norm_num [execute_trades_vectorized, mkVCtx, processEntry, signalIdx, firstExitAfter,
      trailingStopIdx, forcedExitIdx, resolveExit, findFirstIdx, cummaxHigh, cumminLow,
      daysBetween_eq, ns_per_day, pyInt, barsSkip, sigSkip, cfgCash50, cfgBase, dailyBars,
      List.enum, List.range_succ, List.filter_append, List.find?_cons]
  · norm_num [execute_trades, pbStep, pbMark, pbForce, pbEnter, pbExit, daysBetween_eq,
      ns_per_day, pyInt, barsSkip, sigSkip, cfgCash50, cfgBase, dailyBars, List.enum]
  · norm_num [pyInt]

/-- C8 counterexample: on the single-point series `[5]` the sample standard
deviation is NaN (`none` in this embedding), so the Sharpe ratio is NaN
rather than the 0 the claim specifies for fewer than two points. -/
theorem sharpe_single_point_counterexample :
    calcSharpe (fun x => x) [5] 0 = none ∧ (none : Option ℚ) ≠ some 0 := by
  constructor
  · rfl
  · simp

lemma pbMark_long_nonneg (st : PState) (price : ℚ) (hcash : 0 ≤ st.cash)
    (hpos : 0 ≤ st.position) (hprice : 0 < price) : 0 ≤ pbMark .long st price := by
  unfold pbMark
  split_ifs with h
  · exact hcash
  · have hm : (0:ℚ) ≤ (st.position : ℚ) * price :=
      mul_nonneg (by exact_mod_cast hpos) (le_of_lt hprice)
    dsimp only
    linarith

lemma pbEnter_spec (s : ℚ) (st : PState) (date : ℤ) (price : ℚ)
    (hcash : 0 ≤ st.cash) (hep : 0 < price * (1 + s)) :
    0 ≤ (pbEnter 0 s st date price).cash ∧ 0 ≤ (pbEnter 0 s st date price).position ∧
    (pbEnter 0 s st date price).equity = st.equity := by
  simp only [pbEnter]
  have hq : 0 ≤ st.cash / (price * (1 + s)) := div_nonneg hcash (le_of_lt hep)
  have hpi : (0:ℤ) ≤ pyInt (st.cash / (price * (1 + s))) := by
    unfold pyInt
    rw [if_pos hq]
    exact Int.floor_nonneg.mpr hq
  have hfl : (pyInt (st.cash / (price * (1 + s))) : ℚ) ≤ st.cash / (price * (1 + s)) := by
    unfold pyInt
    rw [if_pos hq]
    exact_mod_cast Int.floor_le _
  split_ifs with h3
  · refine ⟨?_, ?_, ?_⟩
    · have hble : (pyInt (st.cash / (price * (1 + s))) : ℚ) * (price * (1 + s)) ≤ st.cash := by
        calc (pyInt (st.cash / (price * (1 + s))) : ℚ) * (price * (1 + s))
            ≤ (st.cash / (price * (1 + s))) * (price * (1 + s)) :=
              mul_le_mul_of_nonneg_right hfl (le_of_lt hep)
          _ = st.cash := div_mul_cancel₀ _ (ne_of_gt hep)
      try dsimp only
      simp only [mul_zero, add_zero]
      linarith
    · exact hpi
    · trivial
  · exact ⟨hcash, hpi, by trivial⟩

lemma pbExit_spec (s lr : ℚ) (cfg : Config) (st : PState) (date : ℤ) (price : ℚ) (f : Bool)
    (hcash : 0 ≤ st.cash) (hpos : 0 ≤ st.position) (hprice : 0 < price) (hs1 : s ≤ 1) :
    0 ≤ (pbExit 0 s lr .long cfg st date price f).cash ∧
    (pbExit 0 s lr .long cfg st date price f).position = 0 ∧
    (pbExit 0 s lr .long cfg st date price f).equity = st.equity := by
  simp only [pbExit]
  refine ⟨?_, by trivial, by trivial⟩
  have hpr : (0:ℚ) ≤ (st.position : ℚ) * (price * (1 - s)) :=
    mul_nonneg (by exact_mod_cast hpos)
      (mul_nonneg (le_of_lt hprice) (by linarith))
  try dsimp only
  simp only [mul_zero, sub_zero]
  linarith

lemma pbStep_long_inv (s lr : ℚ) (cfg : Config) (st : PState) (bar : Bar) (sg : ℤ)
    (hs0 : 0 ≤ s) (hs1 : s ≤ 1) (hprice : 0 < bar.close)
    (hcash : 0 ≤ st.cash) (hpos : 0 ≤ st.position) (heq : ∀ v ∈ st.equity, 0 ≤ v) :
    0 ≤ (pbStep 0 s lr .long cfg st (bar, sg)).cash ∧
    0 ≤ (pbStep 0 s lr .long cfg st (bar, sg)).position ∧
    ∀ v ∈ (pbStep 0 s lr .long cfg st (bar, sg)).equity, 0 ≤ v := by
  have hmark := pbMark_long_nonneg st bar.close hcash hpos hprice
  have hep : 0 < bar.close * (1 + s) := mul_pos hprice (by linarith)
  have heq1 : ∀ v ∈ st.equity ++ [pbMark .long st bar.close], 0 ≤ v := by
    intro v hv
    rcases List.mem_append.1 hv with hv | hv
    · exact heq v hv
    · simp only [List.mem_singleton] at hv
      subst hv
      exact hmark
  simp only [pbStep]
  try dsimp only
  split_ifs with h1 h2
  · obtain ⟨hc', hp', he'⟩ :=
      pbEnter_spec s { st with equity := st.equity ++ [pbMark .long st bar.close] }
        bar.date bar.close hcash hep
    refine ⟨hc', hp', ?_⟩
    rw [he']
    exact heq1
  · obtain ⟨hc', hp', he'⟩ :=
      pbExit_spec s lr cfg { st with equity := st.equity ++ [pbMark .long st bar.close] }
        bar.date bar.close
        (pbForce cfg { st with equity := st.equity ++ [pbMark .long st bar.close] } bar.date)
        hcash hpos hprice hs1
    refine ⟨hc', hp' ▸ le_refl 0, ?_⟩
    rw [he']
    exact heq1
  · exact ⟨hcash, hpos, heq1⟩

lemma ceft_fold_nonneg (prices : List ℚ) (dates : List ℤ) (n : ℕ)
    (hpr : ∀ j, 0 ≤ prices.getD j 0) :
    ∀ (trades : List Trade) (cash : ℚ) (equity : ℕ → ℚ),
      ceftOk cash trades → 0 ≤ cash → (∀ j, 0 ≤ equity j) →
      0 ≤ (trades.foldl (ceftStep prices dates n .long) (cash, equity)).1 ∧
      ∀ j, 0 ≤ (trades.foldl (ceftStep prices dates n .long) (cash, equity)).2 j := by
  intro trades
  induction trades with
  | nil => exact fun cash equity _ hc he => ⟨hc, he⟩
  | cons t ts ih =>
      intro cash equity hok hc he
      obtain ⟨hs, hxp, hle, hpe, hok2⟩ := hok
      have hsx : (0:ℚ) ≤ (t.shares : ℚ) * t.exit_price := mul_nonneg hs hxp
      have hpe2 : t.profit
          = (t.shares : ℚ) * t.exit_price - (t.shares : ℚ) * t.entry_price := by
        rw [hpe]; ring
      have hc2 : 0 ≤ cash + t.profit := by rw [hpe2]; linarith
      have hstep2 : ∀ j, 0 ≤ (ceftStep prices dates n .long (cash, equity) t).2 j := by
        intro j
        simp only [ceftStep]
        split_ifs with h1 h2 h3
        · exact hc2
        · have := mul_nonneg hs (hpr j)
          linarith
        · exact hc
        · exact he j
      have hrec := ih (cash + t.profit)
        (ceftStep prices dates n .long (cash, equity) t).2 hok2 hc2 hstep2
      rw [List.foldl_cons]
      exact hrec

lemma cvec_fold_nonneg (prices : List ℚ) (dates : List ℤ) (n : ℕ) (lr : ℚ) (cfg : Config)
    (hpr : ∀ j, 0 ≤ prices.getD j 0) :
    ∀ (trades : List Trade) (cash : ℚ) (equity : ℕ → ℚ),
      cvecOk cash trades → 0 ≤ cash → (∀ j, 0 ≤ equity j) →
      0 ≤ (trades.foldl (cvecStep prices dates n 0 lr .long cfg) (cash, equity)).1 ∧
      ∀ j, 0 ≤ (trades.foldl (cvecStep prices dates n 0 lr .long cfg) (cash, equity)).2 j := by
  intro trades
  induction trades with
  | nil => exact fun cash equity _ hc he => ⟨hc, he⟩
  | cons t ts ih =>
      intro cash equity hok hc he
      obtain ⟨hs, hxp, hle, hok2⟩ := hok
      have hsx : (0:ℚ) ≤ (t.shares : ℚ) * t.exit_price := mul_nonneg hs hxp
      have hstep1 : (cvecStep prices dates n 0 lr .long cfg (cash, equity) t).1
          = cash - (t.shares : ℚ) * t.entry_price + (t.shares : ℚ) * t.exit_price := by
        simp only [cvecStep, mul_zero, sub_zero]
      have hc2 : 0 ≤ cash - (t.shares : ℚ) * t.entry_price + (t.shares : ℚ) * t.exit_price := by
        linarith
      have hstep2 : ∀ j, 0 ≤ (cvecStep prices dates n 0 lr .long cfg (cash, equity) t).2 j := by
        intro j
        simp only [cvecStep, mul_zero, sub_zero]
        split_ifs with h1 h2 h3
        · exact hc2
        · have := mul_nonneg hs (hpr j)
          linarith
        · exact hc
        · exact he j
      have hrec := ih (cash - (t.shares : ℚ) * t.entry_price + (t.shares : ℚ) * t.exit_price)
        (cvecStep prices dates n 0 lr .long cfg (cash, equity) t).2 hok2 hc2 hstep2
      rw [List.foldl_cons]
      rw [show cvecStep prices dates n 0 lr .long cfg (cash, equity) t
          = (cash - (t.shares : ℚ) * t.entry_price + (t.shares : ℚ) * t.exit_price,
             (cvecStep prices dates n 0 lr .long cfg (cash, equity) t).2) from
        by rw [← hstep1]]
      exact hrec

/-- C9 (amended): for Long runs with zero commission, slippage within [0, 1],
positive closes and nonnegative initial capital, every value of the equity
trajectory is nonnegative for all three producers — the per-bar simulator,
the trade-replay reconstructor `_calculate_equity_from_trades_vectorized`
(for any trade list respecting floor position sizing: nonnegative shares and
exit prices, entry cost within the running cash, profit equal to the price
move), and the valid-trade curve `_calculate_valid_equity_curve` (the same
discipline along its entry-date-sorted replay); finiteness is inherent to
the exact arithmetic of the embedding. For Short runs, or with a positive
commission rate, the trajectory can go negative. -/
theorem long_equity_nonneg (df : List Bar) (signals : List ℤ)
    (slippage lending_rate : ℚ) (cfg : Config) (trades valid_trades : List Trade)
    (hs0 : 0 ≤ slippage) (hs1 : slippage ≤ 1)
    (hc : ∀ b ∈ df, 0 < b.close) (hcap : 0 ≤ cfg.initial_capital)
    (hok1 : ceftOk cfg.initial_capital trades)
    (hok2 : cvecOk cfg.initial_capital (sortTrades valid_trades)) :
    (∀ v ∈ (execute_trades df signals 0 slippage lending_rate .long cfg).2, 0 ≤ v) ∧
    (∀ v ∈ calculate_equity_from_trades_vectorized df trades .long cfg, 0 ≤ v) ∧
    (∀ v ∈ calculate_valid_equity_curve df valid_trades 0 slippage lending_rate .long cfg,
      0 ≤ v) := by
  have hpr : ∀ j, 0 ≤ (df.map Bar.close).getD j 0 := by
    intro j
    rcases lt_or_ge j (df.map Bar.close).length with hj | hj
    · rw [List.getD_eq_getElem _ _ hj, List.getElem_map]
      exact le_of_lt (hc _ (List.getElem_mem _))
    · rw [List.getD_eq_default _ _ hj]
  refine ⟨?_, ?_, ?_⟩
  · have hF := foldl_inv (f := pbStep 0 slippage lending_rate .long cfg)
      (P := fun st : PState => 0 ≤ st.cash ∧ 0 ≤ st.position ∧ ∀ v ∈ st.equity, 0 ≤ v)
      (df.zip signals)
      { cash := cfg.initial_capital, position := 0, entry_price := 0,
        entry_date := none, trades := [], equity := [] }
      ⟨hcap, le_refl 0, by intro v hv; simp at hv⟩
      (by
        intro st b hb hP
        rcases b with ⟨bar, sg⟩
        exact pbStep_long_inv slippage lending_rate cfg st bar sg hs0 hs1
          (hc bar (List.of_mem_zip hb).1) hP.1 hP.2.1 hP.2.2)
    have hsub : (execute_trades df signals 0 slippage lending_rate .long cfg).2 =
        ((df.zip signals).foldl (pbStep 0 slippage lending_rate .long cfg)
          { cash := cfg.initial_capital, position := 0, entry_price := 0,
            entry_date := none, trades := [], equity := [] }).equity := by
      simp only [execute_trades]
      rcases df.getLast? with _ | lastBar
      · rfl
      · dsimp only
        split_ifs <;> rfl
    rw [hsub]
    exact hF.2.2
  · intro v hv
    rw [calculate_equity_from_trades_vectorized] at hv
    split_ifs at hv with ht
    · obtain ⟨j, _, hj⟩ := List.mem_map.1 hv
      rw [← hj]
      exact hcap
    · obtain ⟨j, _, hj⟩ := List.mem_map.1 hv
      rw [← hj]
      exact (ceft_fold_nonneg (df.map Bar.close) (df.map Bar.date) df.length hpr trades
        cfg.initial_capital (fun _ => cfg.initial_capital) hok1 hcap (fun _ => hcap)).2 j
  · intro v hv
    rw [calculate_valid_equity_curve] at hv
    split_ifs at hv with ht
    · obtain ⟨j, _, hj⟩ := List.mem_map.1 hv
      rw [← hj]
      exact hcap
    · obtain ⟨j, _, hj⟩ := List.mem_map.1 hv
      rw [← hj]
      exact (cvec_fold_nonneg (df.map Bar.close) (df.map Bar.date) df.length lending_rate cfg
        hpr (sortTrades valid_trades) cfg.initial_capital (fun _ => cfg.initial_capital)
        hok2 hcap (fun _ => hcap)).2 j

/-- Witness for C9: on the four-bar falling Long run with zero costs, the
first value of each of the three trajectories — per-bar simulator, trade
replay of the recorded trade, valid-trade curve of the same trade — is
nonnegative. -/
theorem long_equity_nonneg_witness :
    0 ≤ ((execute_trades barsDown sigDown 0 0 0 .long cfgBase).2).getD 0 0 ∧
    0 ≤ (calculate_equity_from_trades_vectorized barsDown [tradeDown] .long cfgBase).getD 0 0 ∧
    0 ≤ (calculate_valid_equity_curve barsDown [tradeDown] 0 0 0 .long cfgBase).getD 0 0 := by
  have hval : (execute_trades barsDown sigDown 0 0 0 .long cfgBase).2
      = [1000, 800, 800, 800] := by
    norm_num [execute_trades, pbStep, pbMark, pbForce, pbEnter, pbExit, daysBetween_eq,
      ns_per_day, pyInt, barsDown, sigDown, cfgBase, dailyBars, List.enum]
  have hne : (execute_trades barsDown sigDown 0 0 0 .long cfgBase).2 ≠ [] := by
    rw [hval]
    simp
  have hmem : ((execute_trades barsDown sigDown 0 0 0 .long cfgBase).2).getD 0 0
      ∈ (execute_trades barsDown sigDown 0 0 0 .long cfgBase).2 := by
    cases hl : (execute_trades barsDown sigDown 0 0 0 .long cfgBase).2 with
    | nil => exact absurd hl hne
    | cons a t => exact List.mem_cons_self a t
  have hclose : ∀ b ∈ barsDown, 0 < b.close := by
    intro b hb
    simp only [barsDown, dailyBars, List.enum, List.enumFrom, List.map_cons, List.map_nil,
      List.mem_cons, List.not_mem_nil, or_false] at hb
    rcases hb with rfl | rfl | rfl | rfl <;> norm_num
  have hok1 : ceftOk cfgBase.initial_capital [tradeDown] := by
    norm_num [ceftOk, tradeDown, cfgBase]
  have hok2 : cvecOk cfgBase.initial_capital (sortTrades [tradeDown]) := by
    norm_num [cvecOk, sortTrades, List.mergeSort_singleton, tradeDown, cfgBase]
  have hmain := long_equity_nonneg barsDown sigDown 0 0 cfgBase [tradeDown] [tradeDown]
    (le_refl 0) (by norm_num) hclose (by norm_num [cfgBase]) hok1 hok2
  have hlen2 : (calculate_equity_from_trades_vectorized barsDown [tradeDown] .long
      cfgBase).length = 4 := by
    rw [calculate_equity_from_trades_vectorized, if_neg (by simp)]
    simp [barsDown, dailyBars, List.enum]
  have hlen3 : (calculate_valid_equity_curve barsDown [tradeDown] 0 0 0 .long
      cfgBase).length = 4 := by
    rw [calculate_valid_equity_curve, if_neg (by simp)]
    simp [barsDown, dailyBars, List.enum]
  refine ⟨hmain.1 _ hmem, hmain.2.1 _ ?_, hmain.2.2 _ ?_⟩
  · rw [List.getD_eq_getElem _ _ (by rw [hlen2]; norm_num)]
    exact List.getElem_mem _
  · rw [List.getD_eq_getElem _ _ (by rw [hlen3]; norm_num)]
    exact List.getElem_mem _

/-- C9 counterexample: a Short run (entry 100, price rising to 250) drives
the equity trajectory to −1500, and a Long run with a 10% commission rate
and a crashing price drives it to −9 — equity values are not always ≥ 0
even with positive initial capital and floor-based position sizing. -/
theorem equity_nonneg_counterexample :
    (execute_trades barsShortLoss sigEnterHold 0 0 0 .short cfgBase).2.getD 1 0 < 0 ∧
    (execute_trades barsPenny sigEnterHold (1/10) 0 0 .long cfgCash100).2.getD 1 0 < 0 := by
  constructor
  · norm_num [execute_trades, pbStep, pbMark, pbForce, pbEnter, pbExit, daysBetween_eq,
      ns_per_day, pyInt, barsShortLoss, sigEnterHold, cfgBase, dailyBars, List.enum]
  · norm_num [execute_trades, pbStep, pbMark, pbForce, pbEnter, pbExit, daysBetween_eq,
      ns_per_day, pyInt, barsPenny, sigEnterHold, cfgCash100, cfgBase, dailyBars, List.enum]

lemma daysBetween_self (a : ℤ) : daysBetween a a = 0 := by
  unfold daysBetween
  rw [sub_self]
  exact Int.zero_fdiv _

lemma findFirstIdx_none_of_le {start stop : ℕ} (h : stop ≤ start) (p : ℕ → Bool) :
    findFirstIdx start stop p = none := by
  unfold findFirstIdx
  rw [List.drop_eq_nil_of_le (by simpa using h)]
  rfl

lemma signalIdx_append_one (sigs0 : List ℤ) (h : ∀ s ∈ sigs0, s ≠ 1) :
    signalIdx (sigs0 ++ [1]) 1 = [sigs0.length] := by
  unfold signalIdx
  rw [List.length_append, List.length_singleton, List.range_succ, List.filter_append]
  rw [List.filter_eq_nil_iff.mpr ?side]
  case side =>
    intro a ha
    have hal : a < sigs0.length := List.mem_range.1 ha
    rw [List.getD_append _ _ _ _ hal]
    have hmem : sigs0.getD a 0 ∈ sigs0 := by
      rw [List.getD_eq_getElem _ _ hal]
      exact List.getElem_mem _
    simpa using h _ hmem
  have h2 : (sigs0 ++ [1]).getD sigs0.length 0 = 1 := by
    rw [List.getD_append_right _ _ _ _ (le_refl _)]
    simp
  simp [List.filter_cons, h2]

lemma vec_final_bar_entry (df0 : List Bar) (lastBar : Bar) (sigs0 : List ℤ)
    (commission slippage lending_rate : ℚ) (direction : Direction) (cfg : Config)
    (hlen : sigs0.length = df0.length)
    (hno1 : ∀ s ∈ sigs0, s ≠ 1)
    (hep : 0 < lastBar.close * (1 + slippage))
    (hshares : 0 < pyInt (cfg.initial_capital / (lastBar.close * (1 + slippage)))) :
    ∃ tr : Trade,
      execute_trades_vectorized (df0 ++ [lastBar]) (sigs0 ++ [1]) commission slippage
        lending_rate direction cfg = [tr] ∧
      tr.entry_date = lastBar.date ∧ tr.exit_date = lastBar.date ∧ tr.holding_days = 0 ∧
      tr.forced_exit = true ∧ tr.exit_reason = .end_of_data ∧
      tr.within_target_period = decide (0 ≤ cfg.target_holding_days) := by
  have hn0 : ¬ (df0 ++ [lastBar]).length = 0 := by simp
  rw [execute_trades_vectorized, if_neg hn0, signalIdx_append_one sigs0 hno1]
  rw [List.foldl_cons, List.foldl_nil]
  set ctx := mkVCtx (df0 ++ [lastBar]) (sigs0 ++ [1]) commission slippage lending_rate
    direction cfg with hctx
  have hsl : ctx.slippage = slippage := rfl
  have hcfg : ctx.cfg = cfg := rfl
  have hnn : ctx.n = sigs0.length + 1 := by
    simp [hctx, mkVCtx, hlen]
  have hsig : firstExitAfter ctx.exits sigs0.length = none := by
    unfold firstExitAfter
    rw [List.filter_eq_nil_iff.mpr ?exside]
    · rfl
    case exside =>
      intro j hj
      have hjl := signalIdx_lt hj
      simp only [List.length_append, List.length_singleton] at hjl
      simp only [decide_eq_true_eq]
      omega
  have htrail : trailingStopIdx ctx sigs0.length
      (ctx.closes.getD sigs0.length 0 * (1 + ctx.slippage)) = none := by
    unfold trailingStopIdx
    rw [if_neg]
    rintro ⟨-, hlt⟩
    rw [hnn] at hlt
    omega
  have hforce : forcedExitIdx ctx sigs0.length = none := by
    unfold forcedExitIdx
    exact findFirstIdx_none_of_le (le_of_le_of_eq (min_le_right _ _) hnn) _
  have hres : resolveExit ctx.n none none none = (sigs0.length, true, .end_of_data) := by
    rw [hnn]
    simp [resolveExit]
  have hdate : ctx.dates.getD sigs0.length 0 = lastBar.date := by
    show ((df0 ++ [lastBar]).map Bar.date).getD sigs0.length 0 = lastBar.date
    rw [List.map_append, List.getD_append_right _ _ _ _ (by simp [hlen])]
    simp [hlen]
  have hclose : ctx.closes.getD sigs0.length 0 = lastBar.close := by
    show ((df0 ++ [lastBar]).map Bar.close).getD sigs0.length 0 = lastBar.close
    rw [List.map_append, List.getD_append_right _ _ _ _ (by simp [hlen])]
    simp [hlen]
  simp only [processEntry]
  rw [if_neg (by simp)]
  rw [hsig, htrail, hforce, hres]
  try dsimp only
  rw [hdate, hclose, hsl, hcfg]
  rw [if_pos hep]
  rw [if_neg (ne_of_gt hshares)]
  rw [daysBetween_self]
  exact ⟨_, rfl, rfl, rfl, rfl, rfl, rfl, rfl⟩

lemma pb_final_bar_entry (df0 : List Bar) (lastBar : Bar) (sigs0 : List ℤ)
    (commission slippage lending_rate : ℚ) (direction : Direction) (cfg : Config)
    (hlen : sigs0.length = df0.length)
    (hno1 : ∀ s ∈ sigs0, s ≠ 1)
    (hshares : 0 < pyInt (cfg.initial_capital / (lastBar.close * (1 + slippage)))) :
    ∃ tr : Trade,
      (execute_trades (df0 ++ [lastBar]) (sigs0 ++ [1]) commission slippage lending_rate
        direction cfg).1 = [tr] ∧
      tr.entry_date = lastBar.date ∧ tr.exit_date = lastBar.date ∧ tr.holding_days = 0 ∧
      tr.forced_exit = true ∧ tr.exit_reason = .end_of_data ∧
      tr.within_target_period = decide (0 ≤ cfg.target_holding_days) := by
  have hzip : (df0 ++ [lastBar]).zip (sigs0 ++ [1]) = df0.zip sigs0 ++ [(lastBar, (1:ℤ))] := by
    rw [List.zip_append hlen.symm]
    rfl
  have hmid := foldl_inv (f := pbStep commission slippage lending_rate direction cfg)
    (P := fun st : PState => st.cash = cfg.initial_capital ∧ st.position = 0 ∧
      st.entry_date = none ∧ st.trades = [])
    (df0.zip sigs0)
    { cash := cfg.initial_capital, position := 0, entry_price := 0,
      entry_date := none, trades := [], equity := [] }
    ⟨rfl, rfl, rfl, rfl⟩
    (by
      intro st b hb hP
      rcases b with ⟨bar, sg⟩
      have hsg : sg ≠ 1 := hno1 sg (List.of_mem_zip hb).2
      simp only [pbStep]
      try dsimp only
      rw [if_neg (fun hcon => hsg hcon.1)]
      rw [if_neg (fun hcon => absurd (hP.2.1 ▸ hcon.2) (lt_irrefl 0))]
      exact ⟨hP.1, hP.2.1, hP.2.2.1, hP.2.2.2⟩)
  simp only [execute_trades]
  rw [hzip, List.foldl_append, List.foldl_cons, List.foldl_nil, List.getLast?_concat]
  set M := (df0.zip sigs0).foldl (pbStep commission slippage lending_rate direction cfg)
    { cash := cfg.initial_capital, position := 0, entry_price := 0,
      entry_date := none, trades := [], equity := [] } with hM
  obtain ⟨hMc, hMp, hMd, hMt⟩ := hmid
  simp only [pbStep, pbEnter]
  try dsimp only
  rw [hMc, hMt]
  rw [if_pos (show True ∧ M.position = 0 from ⟨trivial, hMp⟩)]
  rw [if_pos hshares]
  try dsimp only
  rw [if_pos hshares]
  try dsimp only
  rw [daysBetween_self]
  exact ⟨_, rfl, rfl, rfl, rfl, rfl, rfl, rfl⟩

/-- C10 (amended): when the only Enter signal in the input sits at the
final bar and is affordable (positive entry price and a positive share
count), both the vectorized and the per-bar simulator emit exactly one
trade, entered and exited on that final bar: entry and exit timestamps
coincide, holding_days = 0, forced_exit is set, the exit reason is
EndOfData, and within_target_period holds whenever target_days ≥ 0.  An
earlier zero-share Enter candidate voids the guarantee for the vectorized
scan (see the counterexample), which is why no Enter at all may precede the
final bar here. -/
theorem final_bar_entry_trade (df0 : List Bar) (lastBar : Bar) (sigs0 : List ℤ)
    (commission slippage lending_rate : ℚ) (direction : Direction) (cfg : Config)
    (hlen : sigs0.length = df0.length)
    (hno1 : ∀ s ∈ sigs0, s ≠ 1)
    (hep : 0 < lastBar.close * (1 + slippage))
    (hshares : 0 < pyInt (cfg.initial_capital / (lastBar.close * (1 + slippage)))) :
    ((execute_trades_vectorized (df0 ++ [lastBar]) (sigs0 ++ [1]) commission slippage
        lending_rate direction cfg).length = 1 ∧
      ∀ t ∈ execute_trades_vectorized (df0 ++ [lastBar]) (sigs0 ++ [1]) commission slippage
          lending_rate direction cfg,
        t.entry_date = lastBar.date ∧ t.exit_date = lastBar.date ∧ t.holding_days = 0 ∧
        t.forced_exit = true ∧ t.exit_reason = .end_of_data ∧
        (0 ≤ cfg.target_holding_days → t.within_target_period = true)) ∧
    ((execute_trades (df0 ++ [lastBar]) (sigs0 ++ [1]) commission slippage lending_rate
        direction cfg).1.length = 1 ∧
      ∀ t ∈ (execute_trades (df0 ++ [lastBar]) (sigs0 ++ [1]) commission slippage
          lending_rate direction cfg).1,
        t.entry_date = lastBar.date ∧ t.exit_date = lastBar.date ∧ t.holding_days = 0 ∧
        t.forced_exit = true ∧ t.exit_reason = .end_of_data ∧
        (0 ≤ cfg.target_holding_days → t.within_target_period = true)) := by
  obtain ⟨tr, hv, h1, h2, h3, h4, h5, h6⟩ :=
    vec_final_bar_entry df0 lastBar sigs0 commission slippage lending_rate direction cfg
      hlen hno1 hep hshares
  obtain ⟨tr2, hp, g1, g2, g3, g4, g5, g6⟩ :=
    pb_final_bar_entry df0 lastBar sigs0 commission slippage lending_rate direction cfg
      hlen hno1 hshares
  rw [hv, hp]
  refine ⟨⟨rfl, ?_⟩, ⟨rfl, ?_⟩⟩
  · intro t ht
    simp only [List.mem_singleton] at ht
    subst ht
    exact ⟨h1, h2, h3, h4, h5, fun h0 => by rw [h6]; exact decide_eq_true h0⟩
  · intro t ht
    simp only [List.mem_singleton] at ht
    subst ht
    exact ⟨g1, g2, g3, g4, g5, fun h0 => by rw [g6]; exact decide_eq_true h0⟩

/-- Witness for C10 at a one-bar frame with an Enter on that (final) bar:
both simulators emit exactly one trade. -/
theorem final_bar_entry_trade_witness :
    (execute_trades_vectorized [{ date := 0, high := 10, low := 10, close := 10 }]
        [1] 0 0 0 .long cfgBase).length = 1 ∧
    (execute_trades [{ date := 0, high := 10, low := 10, close := 10 }]
        [1] 0 0 0 .long cfgBase).1.length = 1 := by
  have h := final_bar_entry_trade [] { date := 0, high := 10, low := 10, close := 10 } []
    0 0 0 .long cfgBase rfl (by simp) (by norm_num)
    (by norm_num [pyInt, cfgBase])
  exact ⟨h.1.1, h.2.1⟩

/-- C10 counterexample: with capital 50, closes [100, 100, 10] and Enter
signals at bar 0 (unaffordable: floor(50/100) = 0) and at the final bar 2
(affordable: floor(50/10) = 5 > 0), the only Enter that can open a position
sits at the final bar, yet the vectorized simulator emits no trade at all:
the zero-share candidate at bar 0 resolves its exit at the last bar and the
scan resumes past the final Enter.  The per-bar simulator does emit the
same-bar trade. -/
theorem final_bar_entry_counterexample :
    execute_trades_vectorized barsLate sigLate 0 0 0 .long cfgCash50 = [] ∧
    (execute_trades barsLate sigLate 0 0 0 .long cfgCash50).1.length = 1 ∧
    pyInt (50 / 100) = 0 ∧ (0 : ℤ) < pyInt (50 / 10) := by
  refine ⟨?_, ?_, ?_, ?_⟩
  · norm_num [execute_trades_vectorized, mkVCtx, processEntry, signalIdx, firstExitAfter,
      trailingStopIdx, forcedExitIdx, resolveExit, findFirstIdx, cummaxHigh, cumminLow,
      daysBetween_eq, ns_per_day, pyInt, barsLate, sigLate, cfgCash50, cfgBase, dailyBars,
      List.enum, List.range_succ, List.filter_append, List.find?_cons]
  · norm_num [execute_trades, pbStep, pbMark, pbForce, pbEnter, pbExit, daysBetween_eq,
      ns_per_day, pyInt, barsLate, sigLate, cfgCash50, cfgBase, dailyBars, List.enum]
  · norm_num [pyInt]
  · norm_num [pyInt]

end StockBacktest
